import Mathlib

/-!
Shallow embedding of the `outdir-tempdir` crate (src/lib.rs, src/error.rs).

Paths are modelled the way Rust's `std::path` treats them on Unix:
a `String` is decomposed into `Component`s by splitting on `'/'`,
a leading `'/'` yields `Component.rootDir`, a leading `"."` piece yields
`Component.curDir` (elsewhere `"."` pieces are normalized away, as
`Path::components` does), `".."` pieces yield `Component.parentDir`, and
every other non-empty piece is `Component.normal`.  `PathBuf` values are
represented by their component lists (Rust's `PartialEq for Path` compares
exactly the component sequences), and the relative path accumulated by
`cleansing_path` — a sequence of normal segments — by `List String`.

Filesystem effects are made explicit: functions that in Rust call `fs`
primitives return, next to their value, the list of `FsAction`s they
performed.  The compile-time environment value `OUT_DIR` read by
`target_root` is passed in as an `Option String` input.
-/

set_option autoImplicit false

namespace OutdirTempdir

/-- Rust `std::path::Component`, restricted to the payloads this crate uses.
`winDrive` stands for `Component::Prefix` (never produced by Unix parsing,
but `cleansing_path` matches on it). -/
inductive Component where
  | winDrive : String → Component
  | rootDir : Component
  | curDir : Component
  | parentDir : Component
  | normal : String → Component
deriving DecidableEq, Repr

/-- The error enum of src/error.rs.  `io` abstracts the wrapped
`std::io::Error` payload; the path-carrying constructors carry the raw
input path, as in the source. -/
inductive Error where
  | io : Error
  | parentDirContains : String → Error
  | rootDirContains : String → Error
  | outDirNotFound : Error
  | invalidPath : String → Error
deriving DecidableEq, Repr

/-- Filesystem actions the crate can perform, identified by the path
(as a component list) they act on. -/
inductive FsAction where
  | createDirAll : List Component → FsAction
  | removeDirAll : List Component → FsAction
deriving DecidableEq, Repr

/-- Decidable equality for `Except`, so the model can be evaluated on
concrete inputs. -/
instance {ε α : Type} [DecidableEq ε] [DecidableEq α] : DecidableEq (Except ε α) :=
  fun a b =>
    match a, b with
    | Except.ok x, Except.ok y =>
      if h : x = y then isTrue (by rw [h]) else isFalse (by simp [h])
    | Except.error x, Except.error y =>
      if h : x = y then isTrue (by rw [h]) else isFalse (by simp [h])
    | Except.ok _, Except.error _ => isFalse (by simp)
    | Except.error _, Except.ok _ => isFalse (by simp)

/-- Split a character list on `'/'` (the pieces between separators,
in order; adjacent separators give empty pieces). -/
def splitSlash : List Char → List (List Char)
  | [] => [[]]
  | c :: rest =>
    if c = '/' then [] :: splitSlash rest
    else
      match splitSlash rest with
      | [] => [[c]]
      | p :: ps => (c :: p) :: ps

/-- Classify the pieces after the leading position: empty pieces and `"."`
pieces are normalized away, `".."` is a parent-directory component, and
anything else is a normal component. -/
def classifyTail : List (List Char) → List Component
  | [] => []
  | p :: ps =>
    if p = [] ∨ p = ['.'] then classifyTail ps
    else if p = ['.', '.'] then Component.parentDir :: classifyTail ps
    else Component.normal (String.mk p) :: classifyTail ps

/-- Handle the leading piece of a relative path: a first piece `"."` gives
`curDir` (the one place `Path::components` keeps a `.`); everything else
goes through `classifyTail`. -/
def firstPiece : List (List Char) → List Component
  | [] => []
  | p :: ps =>
    if p = ['.'] then Component.curDir :: classifyTail ps
    else classifyTail (p :: ps)

/-- Rust `Path::components()` on Unix, over the character list of the path:
a leading `'/'` gives `rootDir`; otherwise the pieces go through
`firstPiece`/`classifyTail`. -/
def pathComponentsCore : List Char → List Component
  | [] => []
  | c :: cs =>
    if c = '/' then Component.rootDir :: classifyTail (splitSlash cs)
    else firstPiece (splitSlash (c :: cs))

/-- Rust `Path::components()` on Unix, on a `String`. -/
def pathComponents (s : String) : List Component :=
  pathComponentsCore s.data

/-- The `for item in path.components()` loop of `cleansing_path`
(src/lib.rs lines 184-193): `raw` is the input path captured for the
error payloads, `acc` the `PathBuf` being built by `ret.push(x)`. -/
def cleansingLoop (raw : String) : List Component → List String → Except Error (List String)
  | [], acc => Except.ok acc
  | c :: rest, acc =>
    match c with
    | Component.normal x => cleansingLoop raw rest (acc ++ [x])
    | Component.curDir => cleansingLoop raw rest acc
    | Component.parentDir => Except.error (Error.parentDirContains raw)
    | Component.winDrive _ => Except.error (Error.rootDirContains raw)
    | Component.rootDir => Except.error (Error.rootDirContains raw)

/-- `cleansing_path` (src/lib.rs lines 181-196). -/
def cleansing_path (path : String) : Except Error (List String) :=
  cleansingLoop path (pathComponents path) []

/-- Render the relative `PathBuf` built from normal segments back to a
string, joining with the Unix `MAIN_SEPARATOR`. -/
def renderPath : List String → String
  | [] => ""
  | [x] => x
  | x :: xs => x ++ "/" ++ renderPath xs

/-- `target_root` (src/lib.rs lines 171-173): the sandbox root is
`PathBuf::from` of the externally provided `OUT_DIR` value; the external
environment is the `outDirEnv` input. -/
def target_root (outDirEnv : Option String) : Option (List Component) :=
  outDirEnv.map pathComponents

/-- The `TempDir` struct (src/lib.rs lines 78-83).  `root` and `full` are
`PathBuf`s (component lists); `target` is the sanitized relative path
(normal segments). -/
structure TempDir where
  root : List Component
  target : List String
  full : List Component
  autorm : Bool
deriving DecidableEq, Repr

/-- `TempDir::with_path_safe` (src/lib.rs lines 119-138), instrumented
with the list of filesystem actions performed.  `mkdirOk` models the
filesystem's answer to `fs::create_dir_all` (`false` means an `Io`
error).  Joining the root with the relative target appends the target's
segments to the root's components. -/
def with_path_safe (outDirEnv : Option String) (mkdirOk : List Component → Bool)
    (path : String) : Except Error TempDir × List FsAction :=
  match cleansing_path path with
  | Except.error e => (Except.error e, [])
  | Except.ok target =>
    match target_root outDirEnv with
    | none => (Except.error Error.outDirNotFound, [])
    | some root =>
      let full := root ++ target.map Component.normal
      if root = full then (Except.error (Error.invalidPath path), [])
      else if mkdirOk full then
        (Except.ok { root := root, target := target, full := full, autorm := false },
         [FsAction.createDirAll full])
      else (Except.error Error.io, [FsAction.createDirAll full])

/-- `TempDir::autorm` (src/lib.rs lines 141-144): consume the handle and
return it with the `autorm` flag set.  (Named `enable_autorm` here because
the Lean field is already called `autorm`.) -/
def TempDir.enable_autorm (t : TempDir) : TempDir :=
  { t with autorm := true }

/-- `TempDir::path` (src/lib.rs lines 147-149). -/
def TempDir.path (t : TempDir) : List Component :=
  t.full

/-- `Drop for TempDir` (src/lib.rs lines 152-162), as the list of
filesystem actions it performs: nothing when `autorm` is unset; otherwise
`fs::remove_dir_all(root.join(topdir))` for the first component of the
target, and nothing when the target has no components. -/
def TempDir.dropActions (t : TempDir) : List FsAction :=
  if t.autorm then
    match t.target with
    | [] => []
    | topdir :: _ => [FsAction.removeDirAll (t.root ++ [Component.normal topdir])]
  else []

/-- State-threaded form of `cleansing_path`: the body of the Rust function
contains no filesystem, environment or other effectful call, so threading
an arbitrary outside state `w` through its translation leaves `w`
untouched and the value independent of it. -/
def cleansing_path_st (σ : Type) (path : String) (w : σ) :
    Except Error (List String) × σ :=
  (cleansing_path path, w)

/-- A well-formed normal segment: what `cleansing_path` can ever put into
its result. -/
def goodSeg (x : String) : Prop :=
  x.data ≠ [] ∧ x.data ≠ ['.'] ∧ x.data ≠ ['.', '.'] ∧ '/' ∉ x.data

/-- The invariant every constructed handle satisfies: the sanitized target
has at least one component, and the full path is the root joined with the
target. -/
def TempDirInv (t : TempDir) : Prop :=
  t.target ≠ [] ∧ t.full = t.root ++ t.target.map Component.normal

/-- The normal-segment payloads of a component list, in order. -/
def extractNormals : List Component → List String
  | [] => []
  | Component.normal x :: rest => x :: extractNormals rest
  | _ :: rest => extractNormals rest

end OutdirTempdir

namespace OutdirTempdir

/-! ### Basic facts about the path representation -/

theorem data_append (s t : String) : (s ++ t).data = s.data ++ t.data := by
  cases s; cases t; rfl

theorem string_eq_of_data {s t : String} (h : s.data = t.data) : s = t := by
  cases s; cases t
  exact congrArg String.mk h

theorem splitSlash_ne_nil (cs : List Char) : splitSlash cs ≠ [] := by
  cases cs with
  | nil => simp [splitSlash]
  | cons c rest =>
    by_cases hc : c = '/'
    · simp [splitSlash, hc]
    · simp only [splitSlash, if_neg hc]
      cases splitSlash rest <;> simp

theorem splitSlash_no_sep (cs : List Char) (p : List Char) (hp : p ∈ splitSlash cs) :
    '/' ∉ p := by
  induction cs generalizing p with
  | nil =>
    simp [splitSlash] at hp
    subst hp
    simp
  | cons c rest ih =>
    by_cases hc : c = '/'
    · simp only [splitSlash, if_pos hc, List.mem_cons] at hp
      rcases hp with rfl | hp
      · simp
      · exact ih p hp
    · rcases hr : splitSlash rest with _ | ⟨q, qs⟩
      · exact absurd hr (splitSlash_ne_nil rest)
      · simp only [splitSlash, if_neg hc, hr, List.mem_cons] at hp
        rcases hp with rfl | hp
        · intro hm
          rcases List.mem_cons.mp hm with h | h
          · exact hc h.symm
          · exact ih q (hr ▸ List.mem_cons_self q qs) h
        · exact ih p (by rw [hr]; exact List.mem_cons_of_mem q hp)

theorem splitSlash_append (p rest : List Char) (hp : '/' ∉ p) :
    splitSlash (p ++ '/' :: rest) = p :: splitSlash rest := by
  induction p with
  | nil => simp [splitSlash]
  | cons a p ih =>
    have ha : a ≠ '/' := fun h => hp (h ▸ List.mem_cons_self a p)
    have hp' : '/' ∉ p := fun h => hp (List.mem_cons_of_mem a h)
    simp only [List.cons_append, splitSlash, List.append_eq, if_neg ha]
    rw [ih hp']

theorem splitSlash_single (p : List Char) (hp : '/' ∉ p) : splitSlash p = [p] := by
  induction p with
  | nil => rfl
  | cons a p ih =>
    have ha : a ≠ '/' := fun h => hp (h ▸ List.mem_cons_self a p)
    have hp' : '/' ∉ p := fun h => hp (List.mem_cons_of_mem a h)
    simp only [splitSlash, if_neg ha]
    rw [ih hp']

theorem mem_classifyTail (l : List (List Char)) (c : Component) (hc : c ∈ classifyTail l) :
    c = Component.parentDir ∨
      ∃ p, p ∈ l ∧ c = Component.normal (String.mk p) ∧
        p ≠ [] ∧ p ≠ ['.'] ∧ p ≠ ['.', '.'] := by
  induction l with
  | nil => simp [classifyTail] at hc
  | cons p ps ih =>
    by_cases h1 : p = [] ∨ p = ['.']
    · rcases ih (by simpa [classifyTail, h1] using hc) with h | ⟨q, hq, hrest⟩
      · exact Or.inl h
      · exact Or.inr ⟨q, List.mem_cons_of_mem p hq, hrest⟩
    · by_cases h2 : p = ['.', '.']
      · rcases List.mem_cons.mp (by simpa [classifyTail, h1, h2] using hc) with rfl | hc'
        · exact Or.inl rfl
        · rcases ih hc' with h | ⟨q, hq, hrest⟩
          · exact Or.inl h
          · exact Or.inr ⟨q, List.mem_cons_of_mem p hq, hrest⟩
      · rcases List.mem_cons.mp (by simpa [classifyTail, h1, h2] using hc) with rfl | hc'
        · push_neg at h1
          exact Or.inr ⟨p, List.mem_cons_self p ps, rfl, h1.1, h1.2, h2⟩
        · rcases ih hc' with h | ⟨q, hq, hrest⟩
          · exact Or.inl h
          · exact Or.inr ⟨q, List.mem_cons_of_mem p hq, hrest⟩

theorem rootDir_not_mem_classifyTail (l : List (List Char)) :
    Component.rootDir ∉ classifyTail l := by
  intro h
  rcases mem_classifyTail l _ h with h' | ⟨p, _, h', _⟩ <;> exact Component.noConfusion h'

theorem curDir_not_mem_classifyTail (l : List (List Char)) :
    Component.curDir ∉ classifyTail l := by
  intro h
  rcases mem_classifyTail l _ h with h' | ⟨p, _, h', _⟩ <;> exact Component.noConfusion h'

theorem winDrive_not_mem_classifyTail (l : List (List Char)) (d : String) :
    Component.winDrive d ∉ classifyTail l := by
  intro h
  rcases mem_classifyTail l _ h with h' | ⟨p, _, h', _⟩ <;> exact Component.noConfusion h'

end OutdirTempdir

namespace OutdirTempdir

/-! ### Facts about `pathComponents` -/

theorem mem_firstPiece (l : List (List Char)) (c : Component) (hc : c ∈ firstPiece l) :
    c = Component.curDir ∨ c ∈ classifyTail l := by
  cases l with
  | nil => simp [firstPiece] at hc
  | cons p ps =>
    by_cases hp : p = ['.']
    · rcases List.mem_cons.mp (by simpa [firstPiece, hp] using hc) with rfl | h
      · exact Or.inl rfl
      · refine Or.inr ?_
        rw [hp]
        simpa [classifyTail] using h
    · exact Or.inr (by simpa [firstPiece, hp] using hc)

theorem winDrive_not_mem_pathComponents (s : String) (d : String) :
    Component.winDrive d ∉ pathComponents s := by
  intro h
  unfold pathComponents at h
  rcases hd : s.data with _ | ⟨c, cs⟩ <;> rw [hd] at h
  · simp [pathComponentsCore] at h
  · by_cases hc : c = '/'
    · have h' : Component.winDrive d ∈ classifyTail (splitSlash cs) := by
        simpa [pathComponentsCore, hc] using h
      exact winDrive_not_mem_classifyTail _ d h'
    · have h' : Component.winDrive d ∈ firstPiece (splitSlash (c :: cs)) := by
        simpa [pathComponentsCore, hc] using h
      rcases mem_firstPiece _ _ h' with h'' | h''
      · exact Component.noConfusion h''
      · exact winDrive_not_mem_classifyTail _ d h''

theorem rootDir_head_of_mem (s : String) (h : Component.rootDir ∈ pathComponents s) :
    ∃ t, pathComponents s = Component.rootDir :: t := by
  have h' : Component.rootDir ∈ pathComponentsCore s.data := h
  suffices hs : ∃ t, pathComponentsCore s.data = Component.rootDir :: t by exact hs
  clear h
  revert h'
  rcases s.data with _ | ⟨c, cs⟩ <;> intro h'
  · simp [pathComponentsCore] at h'
  · by_cases hc : c = '/'
    · exact ⟨classifyTail (splitSlash cs), by simp [pathComponentsCore, hc]⟩
    · exfalso
      have h'' : Component.rootDir ∈ firstPiece (splitSlash (c :: cs)) := by
        simpa [pathComponentsCore, hc] using h'
      rcases mem_firstPiece _ _ h'' with h3 | h3
      · exact Component.noConfusion h3
      · exact rootDir_not_mem_classifyTail _ h3

theorem normal_mem_pathComponentsCore (cs : List Char) (x : String)
    (h : Component.normal x ∈ pathComponentsCore cs) :
    ∃ p, x = String.mk p ∧ p ≠ [] ∧ p ≠ ['.'] ∧ p ≠ ['.', '.'] ∧ '/' ∉ p := by
  cases cs with
  | nil => simp [pathComponentsCore] at h
  | cons c cs =>
    by_cases hc : c = '/'
    · have h' : Component.normal x ∈ classifyTail (splitSlash cs) := by
        simpa [pathComponentsCore, hc] using h
      rcases mem_classifyTail _ _ h' with h'' | ⟨p, hp, heq, h1, h2, h3⟩
      · exact absurd h'' (by simp)
      · exact ⟨p, Component.normal.inj heq, h1, h2, h3, splitSlash_no_sep cs p hp⟩
    · have h' : Component.normal x ∈ firstPiece (splitSlash (c :: cs)) := by
        simpa [pathComponentsCore, hc] using h
      rcases mem_firstPiece _ _ h' with h'' | h''
      · exact absurd h'' (by simp)
      · rcases mem_classifyTail _ _ h'' with h''' | ⟨p, hp, heq, h1, h2, h3⟩
        · exact absurd h''' (by simp)
        · exact ⟨p, Component.normal.inj heq, h1, h2, h3,
            splitSlash_no_sep (c :: cs) p hp⟩

theorem goodPiece_of_normal_mem_pathComponents (s x : String)
    (h : Component.normal x ∈ pathComponents s) :
    x.data ≠ [] ∧ x.data ≠ ['.'] ∧ x.data ≠ ['.', '.'] ∧ '/' ∉ x.data := by
  obtain ⟨p, hxp, h1, h2, h3, h4⟩ := normal_mem_pathComponentsCore s.data x h
  subst hxp
  exact ⟨h1, h2, h3, h4⟩

/-! ### Facts about the cleansing loop -/

theorem cleansingLoop_all_ok (raw : String) (l : List Component) (acc : List String)
    (h : ∀ c ∈ l, c = Component.curDir ∨ ∃ x, c = Component.normal x) :
    cleansingLoop raw l acc = Except.ok (acc ++ extractNormals l) := by
  induction l generalizing acc with
  | nil => simp [cleansingLoop, extractNormals]
  | cons c rest ih =>
    rcases h c (List.mem_cons_self c rest) with rfl | ⟨x, rfl⟩
    · simpa [cleansingLoop, extractNormals] using
        ih acc (fun c hc => h c (List.mem_cons_of_mem _ hc))
    · have := ih (acc ++ [x]) (fun c hc => h c (List.mem_cons_of_mem _ hc))
      simpa [cleansingLoop, extractNormals] using this

theorem cleansingLoop_parentDir (raw : String) (l : List Component) :
    Component.parentDir ∈ l → Component.rootDir ∉ l →
      (∀ d, Component.winDrive d ∉ l) → ∀ acc,
      cleansingLoop raw l acc = Except.error (Error.parentDirContains raw) := by
  induction l with
  | nil => intro hp _ _ _; simp at hp
  | cons c rest ih =>
    intro hp hr hw acc
    have hr' : Component.rootDir ∉ rest := fun h => hr (List.mem_cons_of_mem c h)
    have hw' : ∀ d, Component.winDrive d ∉ rest :=
      fun d h => hw d (List.mem_cons_of_mem c h)
    cases c with
    | normal x =>
      have hp' : Component.parentDir ∈ rest := by
        rcases List.mem_cons.mp hp with h | h
        · exact absurd h (by simp)
        · exact h
      simpa [cleansingLoop] using ih hp' hr' hw' (acc ++ [x])
    | curDir =>
      have hp' : Component.parentDir ∈ rest := by
        rcases List.mem_cons.mp hp with h | h
        · exact absurd h (by simp)
        · exact h
      simpa [cleansingLoop] using ih hp' hr' hw' acc
    | parentDir => rfl
    | rootDir => exact absurd (List.mem_cons_self _ _) hr
    | winDrive d => exact absurd (List.mem_cons_self _ _) (hw d)

theorem cleansingLoop_ok_inv (raw : String) (l : List Component) (acc r : List String)
    (h : cleansingLoop raw l acc = Except.ok r) :
    r = acc ++ extractNormals l ∧
      ∀ c ∈ l, c = Component.curDir ∨ ∃ x, c = Component.normal x := by
  induction l generalizing acc with
  | nil =>
    simp [cleansingLoop] at h
    subst h
    simp [extractNormals]
  | cons c rest ih =>
    cases c with
    | normal x =>
      obtain ⟨hr, hall⟩ := ih (acc ++ [x]) (by simpa [cleansingLoop] using h)
      refine ⟨by simpa [extractNormals] using hr, ?_⟩
      intro c hc
      rcases List.mem_cons.mp hc with rfl | hc'
      · exact Or.inr ⟨x, rfl⟩
      · exact hall c hc'
    | curDir =>
      obtain ⟨hr, hall⟩ := ih acc (by simpa [cleansingLoop] using h)
      refine ⟨by simpa [extractNormals] using hr, ?_⟩
      intro c hc
      rcases List.mem_cons.mp hc with rfl | hc'
      · exact Or.inl rfl
      · exact hall c hc'
    | parentDir => simp [cleansingLoop] at h
    | rootDir => simp [cleansingLoop] at h
    | winDrive d => simp [cleansingLoop] at h

theorem extractNormals_map_normal (r : List String) :
    extractNormals (r.map Component.normal) = r := by
  induction r with
  | nil => rfl
  | cons x xs ih => simp [extractNormals, ih]

theorem mem_of_mem_extractNormals (l : List Component) (x : String)
    (h : x ∈ extractNormals l) : Component.normal x ∈ l := by
  induction l with
  | nil => simp [extractNormals] at h
  | cons c rest ih =>
    cases c with
    | normal y =>
      rcases List.mem_cons.mp (by simpa [extractNormals] using h) with rfl | h'
      · exact List.mem_cons_self _ _
      · exact List.mem_cons_of_mem _ (ih h')
    | curDir => exact List.mem_cons_of_mem _ (ih (by simpa [extractNormals] using h))
    | parentDir => exact List.mem_cons_of_mem _ (ih (by simpa [extractNormals] using h))
    | rootDir => exact List.mem_cons_of_mem _ (ih (by simpa [extractNormals] using h))
    | winDrive d => exact List.mem_cons_of_mem _ (ih (by simpa [extractNormals] using h))

end OutdirTempdir

namespace OutdirTempdir

/-! ### Round-tripping a sanitized path through the parser -/

theorem cleansing_path_ok_goodSeg (s : String) (r : List String)
    (h : cleansing_path s = Except.ok r) : ∀ x ∈ r, goodSeg x := by
  intro x hx
  obtain ⟨hr, -⟩ := cleansingLoop_ok_inv s (pathComponents s) [] r h
  have hx' : x ∈ extractNormals (pathComponents s) := by
    rw [hr] at hx
    simpa using hx
  exact goodPiece_of_normal_mem_pathComponents s x
    (mem_of_mem_extractNormals _ x hx')

theorem splitSlash_renderPath (r : List String) (h : ∀ x ∈ r, '/' ∉ x.data)
    (hne : r ≠ []) : splitSlash (renderPath r).data = r.map String.data := by
  induction r with
  | nil => exact absurd rfl hne
  | cons x xs ih =>
    cases xs with
    | nil =>
      show splitSlash x.data = [x.data]
      exact splitSlash_single x.data (h x (List.mem_cons_self x []))
    | cons y ys =>
      have hx : '/' ∉ x.data := h x (List.mem_cons_self x (y :: ys))
      have hdata : (renderPath (x :: y :: ys)).data
          = x.data ++ '/' :: (renderPath (y :: ys)).data := by
        show (x ++ "/" ++ renderPath (y :: ys)).data = _
        rw [data_append, data_append, List.append_assoc]
        rfl
      rw [hdata, splitSlash_append x.data _ hx,
        ih (fun z hz => h z (List.mem_cons_of_mem x hz)) (by simp)]
      rfl

theorem classifyTail_map_data (r : List String) (h : ∀ x ∈ r, goodSeg x) :
    classifyTail (r.map String.data) = r.map Component.normal := by
  induction r with
  | nil => rfl
  | cons x xs ih =>
    obtain ⟨h1, h2, h3, -⟩ := h x (List.mem_cons_self x xs)
    have hguard : ¬(x.data = [] ∨ x.data = ['.']) := by
      rintro (h' | h') <;> [exact h1 h'; exact h2 h']
    simp only [List.map_cons, classifyTail, if_neg hguard, if_neg h3]
    rw [ih (fun y hy => h y (List.mem_cons_of_mem x hy))]

theorem pathComponents_renderPath (r : List String) (h : ∀ x ∈ r, goodSeg x) :
    pathComponents (renderPath r) = r.map Component.normal := by
  cases r with
  | nil => rfl
  | cons x xs =>
    obtain ⟨h1, h2, -, h4⟩ := h x (List.mem_cons_self x xs)
    have hsplit : splitSlash (renderPath (x :: xs)).data
        = x.data :: xs.map String.data := by
      have := splitSlash_renderPath (x :: xs)
        (fun y hy => (h y hy).2.2.2) (by simp)
      simpa using this
    obtain ⟨c, cs, hcs⟩ : ∃ c cs, x.data = c :: cs := by
      rcases hx : x.data with _ | ⟨c, cs⟩
      · exact absurd hx h1
      · exact ⟨c, cs, rfl⟩
    have hc : c ≠ '/' := by
      intro hc'
      exact h4 (by rw [hcs, hc']; exact List.mem_cons_self _ _)
    obtain ⟨rest, hrest⟩ : ∃ rest, (renderPath (x :: xs)).data = c :: rest := by
      cases xs with
      | nil => exact ⟨cs, by simpa [renderPath] using hcs⟩
      | cons y ys =>
        refine ⟨cs ++ '/' :: (renderPath (y :: ys)).data, ?_⟩
        show (x ++ "/" ++ renderPath (y :: ys)).data = _
        rw [data_append, data_append, List.append_assoc, hcs]
        rfl
    have hfull : pathComponents (renderPath (x :: xs))
        = firstPiece (splitSlash ((renderPath (x :: xs)).data)) := by
      unfold pathComponents
      rw [hrest]
      simp [pathComponentsCore, if_neg hc, ← hrest]
    rw [hfull, hsplit]
    have hdot : x.data ≠ ['.'] := h2
    simp only [firstPiece, if_neg hdot]
    have : classifyTail (x.data :: xs.map String.data)
        = classifyTail ((x :: xs).map String.data) := by rfl
    rw [this, classifyTail_map_data (x :: xs) h]

end OutdirTempdir

namespace OutdirTempdir

/-! ### Inversion of successful handle construction -/

theorem with_path_safe_ok_inv (outDirEnv : Option String) (mk : List Component → Bool)
    (s : String) (t : TempDir) (tr : List FsAction)
    (h : with_path_safe outDirEnv mk s = (Except.ok t, tr)) :
    ∃ r target, outDirEnv = some r ∧ cleansing_path s = Except.ok target ∧
      target ≠ [] ∧
      mk (pathComponents r ++ target.map Component.normal) = true ∧
      t = { root := pathComponents r, target := target,
            full := pathComponents r ++ target.map Component.normal,
            autorm := false } ∧
      tr = [FsAction.createDirAll (pathComponents r ++ target.map Component.normal)] := by
  unfold with_path_safe at h
  rcases hc : cleansing_path s with e | target <;> rw [hc] at h
  · simp at h
  · rcases henv : target_root outDirEnv with - | root <;> rw [henv] at h
    · simp at h
    · obtain ⟨r, hr, hroot⟩ := Option.map_eq_some'.mp henv
      subst hroot
      have h' : (if pathComponents r = pathComponents r ++ target.map Component.normal
            then (Except.error (Error.invalidPath s), ([] : List FsAction))
            else if mk (pathComponents r ++ target.map Component.normal) = true
              then (Except.ok (TempDir.mk (pathComponents r) target
                      (pathComponents r ++ target.map Component.normal) false),
                    [FsAction.createDirAll
                      (pathComponents r ++ target.map Component.normal)])
              else (Except.error Error.io,
                    [FsAction.createDirAll
                      (pathComponents r ++ target.map Component.normal)]))
          = (Except.ok t, tr) := h
      clear h
      by_cases hfull : pathComponents r = pathComponents r ++ target.map Component.normal
      · rw [if_pos hfull] at h'
        simp at h'
      · rw [if_neg hfull] at h'
        have hne : target ≠ [] := by
          intro h0
          subst h0
          simp at hfull
        by_cases hmk : mk (pathComponents r ++ target.map Component.normal) = true
        · rw [if_pos hmk] at h'
          obtain ⟨ht, htr⟩ := Prod.mk.injEq .. ▸ h'
          have ht' := Except.ok.inj ht
          exact ⟨r, target, hr, rfl, hne, hmk, ht'.symm, htr.symm⟩
        · rw [if_neg hmk] at h'
          simp at h'

end OutdirTempdir

namespace OutdirTempdir

/-! ### Claims -/

/-- Claim C1, counterexample to the claim as stated: the absolute input
`"/../tmp"` contains a parent-directory component, yet `cleansing_path`
returns `RootDirContains` (the loop meets the root marker first), not
`ParentDirContains`. -/
theorem cleansing_parentDir_absolute_cex :
    Component.parentDir ∈ pathComponents "/../tmp" ∧
    cleansing_path "/../tmp" = Except.error (Error.rootDirContains "/../tmp") ∧
    cleansing_path "/../tmp" ≠ Except.error (Error.parentDirContains "/../tmp") := by
  refine ⟨by decide, by decide, by decide⟩

/-- Claim C1 (amended): for every input path that contains a `..`
component and no root marker, `cleansing_path` returns
`ParentDirContains` carrying the raw input path, and handle construction
on that input performs no filesystem action. -/
theorem cleansing_parentDir_relative (s : String) (outDirEnv : Option String)
    (mk : List Component → Bool)
    (hp : Component.parentDir ∈ pathComponents s)
    (hr : Component.rootDir ∉ pathComponents s) :
    cleansing_path s = Except.error (Error.parentDirContains s) ∧
    with_path_safe outDirEnv mk s = (Except.error (Error.parentDirContains s), []) := by
  have h1 : cleansing_path s = Except.error (Error.parentDirContains s) :=
    cleansingLoop_parentDir s (pathComponents s) hp hr
      (fun d => winDrive_not_mem_pathComponents s d) []
  refine ⟨h1, ?_⟩
  unfold with_path_safe
  rw [h1]

/-- Witness for C1 (amended) at the concrete input `"../tmp/path"`. -/
theorem cleansing_parentDir_relative_witness :
    Component.parentDir ∈ pathComponents "../tmp/path" ∧
    Component.rootDir ∉ pathComponents "../tmp/path" ∧
    cleansing_path "../tmp/path" = Except.error (Error.parentDirContains "../tmp/path") ∧
    with_path_safe (some "/o") (fun _ => true) "../tmp/path"
      = (Except.error (Error.parentDirContains "../tmp/path"), []) := by
  have h := cleansing_parentDir_relative "../tmp/path" (some "/o") (fun _ => true)
    (by decide) (by decide)
  exact ⟨by decide, by decide, h.1, h.2⟩

/-- Claim C2: for every input path containing a root marker,
`cleansing_path` returns `RootDirContains` carrying the raw input; the
loop likewise maps a drive-prefix component (which Unix parsing never
produces) to `RootDirContains`. -/
theorem cleansing_rootDir (s : String) (h : Component.rootDir ∈ pathComponents s) :
    cleansing_path s = Except.error (Error.rootDirContains s) ∧
    ∀ d l acc, cleansingLoop s (Component.winDrive d :: l) acc
        = Except.error (Error.rootDirContains s) := by
  obtain ⟨t, ht⟩ := rootDir_head_of_mem s h
  constructor
  · unfold cleansing_path
    rw [ht]
    rfl
  · intro d l acc
    rfl

/-- Witness for C2 at the concrete input `"/tmp/path"`. -/
theorem cleansing_rootDir_witness :
    Component.rootDir ∈ pathComponents "/tmp/path" ∧
    cleansing_path "/tmp/path" = Except.error (Error.rootDirContains "/tmp/path") ∧
    cleansingLoop "/tmp/path" [Component.winDrive "C:", Component.normal "tmp"] []
      = Except.error (Error.rootDirContains "/tmp/path") := by
  refine ⟨by decide, ?_, ?_⟩
  · exact (cleansing_rootDir "/tmp/path" (by decide)).1
  · exact (cleansing_rootDir "/tmp/path" (by decide)).2 "C:" [Component.normal "tmp"] []

/-- Claim C3: on drop, a handle with `autorm` unset performs no
filesystem action; with `autorm` set it removes `root ⊕ firstComponent`
recursively when the target has a first component, and does nothing when
the target is empty. -/
theorem tempDir_drop_spec (t : TempDir) :
    (t.autorm = false → t.dropActions = []) ∧
    (t.autorm = true → t.target = [] → t.dropActions = []) ∧
    (∀ x xs, t.autorm = true → t.target = x :: xs →
      t.dropActions = [FsAction.removeDirAll (t.root ++ [Component.normal x])]) := by
  refine ⟨fun h => by simp [TempDir.dropActions, h],
    fun h h' => by simp [TempDir.dropActions, h, h'],
    fun x xs h h' => by simp [TempDir.dropActions, h, h']⟩

/-- Witness for C3 at a concrete handle with `autorm` set and target
`foo/bar`. -/
theorem tempDir_drop_spec_witness :
    (TempDir.mk [Component.rootDir, Component.normal "o"] ["foo", "bar"]
        [Component.rootDir, Component.normal "o", Component.normal "foo",
          Component.normal "bar"] true).dropActions
      = [FsAction.removeDirAll [Component.rootDir, Component.normal "o",
          Component.normal "foo"]] := by
  have h := (tempDir_drop_spec (TempDir.mk [Component.rootDir, Component.normal "o"]
      ["foo", "bar"] [Component.rootDir, Component.normal "o", Component.normal "foo",
        Component.normal "bar"] true)).2.2 "foo" ["bar"] rfl rfl
  simpa using h

/-- Claim C4: for every input composed solely of normal and `.`
components, `cleansing_path` succeeds and returns exactly the normal
segments in order (the `.` segments removed). -/
theorem cleansing_normal_curDir (s : String)
    (h : ∀ c ∈ pathComponents s, c = Component.curDir ∨ ∃ x, c = Component.normal x) :
    cleansing_path s = Except.ok (extractNormals (pathComponents s)) := by
  unfold cleansing_path
  simpa using cleansingLoop_all_ok s (pathComponents s) [] h

/-- Witness for C4: `"./tmp/path"` yields `tmp/path` and `"foo/bar/baz"`
yields `foo/bar/baz`. -/
theorem cleansing_normal_curDir_witness :
    cleansing_path "./tmp/path" = Except.ok ["tmp", "path"] ∧
    renderPath ["tmp", "path"] = "tmp/path" ∧
    cleansing_path "foo/bar/baz" = Except.ok ["foo", "bar", "baz"] ∧
    renderPath ["foo", "bar", "baz"] = "foo/bar/baz" := by
  refine ⟨?_, by decide, by decide, by decide⟩
  have h := cleansing_normal_curDir "./tmp/path" ?hyp
  case hyp =>
    intro c hc
    have hc' : c ∈ [Component.curDir, Component.normal "tmp", Component.normal "path"] := hc
    rcases List.mem_cons.mp hc' with rfl | hc'
    · exact Or.inl rfl
    rcases List.mem_cons.mp hc' with rfl | hc'
    · exact Or.inr ⟨"tmp", rfl⟩
    rcases List.mem_cons.mp hc' with rfl | hc'
    · exact Or.inr ⟨"path", rfl⟩
    · exact absurd hc' (List.not_mem_nil c)
  exact h

/-- Claim C5: whenever the sanitizer succeeds with an empty target (the
sanitizer itself does not reject such input), construction fails with
`InvalidPath` carrying the raw input, performing no filesystem action:
the joined full path equals the root. -/
theorem with_path_safe_empty_target_invalid (s r : String) (mk : List Component → Bool)
    (h : cleansing_path s = Except.ok []) :
    with_path_safe (some r) mk s = (Except.error (Error.invalidPath s), []) := by
  simp [with_path_safe, h, target_root]

/-- Witness for C5 at the concrete input `"."`. -/
theorem with_path_safe_empty_target_invalid_witness :
    cleansing_path "." = Except.ok [] ∧
    with_path_safe (some "/out") (fun _ => true) "."
      = (Except.error (Error.invalidPath "."), []) :=
  ⟨by decide, with_path_safe_empty_target_invalid "." "/out" (fun _ => true) (by decide)⟩

/-- Claim C6: every successfully constructed handle has `autorm = false`,
and `enable_autorm` returns a handle with `autorm = true` leaving `root`,
`target` and `full` unchanged (and, being a pure record update in the
embedding, performs no I/O). -/
theorem constructed_handle_autorm_toggle (s : String) (outDirEnv : Option String)
    (mk : List Component → Bool) (t : TempDir) (tr : List FsAction)
    (h : with_path_safe outDirEnv mk s = (Except.ok t, tr)) :
    t.autorm = false ∧ t.enable_autorm.autorm = true ∧
    t.enable_autorm.root = t.root ∧ t.enable_autorm.target = t.target ∧
    t.enable_autorm.full = t.full := by
  obtain ⟨r, target, -, -, -, -, ht, -⟩ := with_path_safe_ok_inv outDirEnv mk s t tr h
  subst ht
  exact ⟨rfl, rfl, rfl, rfl, rfl⟩

/-- Witness for C6 at the concrete construction of `"foo"` under root
`"/o"`. -/
theorem constructed_handle_autorm_toggle_witness :
    (TempDir.mk [Component.rootDir, Component.normal "o"] ["foo"]
        [Component.rootDir, Component.normal "o", Component.normal "foo"] false).autorm
      = false ∧
    (TempDir.mk [Component.rootDir, Component.normal "o"] ["foo"]
        [Component.rootDir, Component.normal "o", Component.normal "foo"]
        false).enable_autorm.autorm = true := by
  have h := constructed_handle_autorm_toggle "foo" (some "/o") (fun _ => true)
    (TempDir.mk [Component.rootDir, Component.normal "o"] ["foo"]
      [Component.rootDir, Component.normal "o", Component.normal "foo"] false)
    [FsAction.createDirAll [Component.rootDir, Component.normal "o",
      Component.normal "foo"]]
    (by decide)
  exact ⟨h.1, h.2.1⟩

/-- Claim C7: when the sanitizer accepts the input but the externally
provided `OUT_DIR` value is absent, construction fails with
`OutDirNotFound` and performs no filesystem action. -/
theorem with_path_safe_outDir_missing (s : String) (mk : List Component → Bool)
    (r : List String) (h : cleansing_path s = Except.ok r) :
    with_path_safe none mk s = (Except.error Error.outDirNotFound, []) := by
  simp [with_path_safe, h, target_root]

/-- Witness for C7 at the concrete input `"foo"`. -/
theorem with_path_safe_outDir_missing_witness :
    cleansing_path "foo" = Except.ok ["foo"] ∧
    with_path_safe none (fun _ => true) "foo"
      = (Except.error Error.outDirNotFound, []) :=
  ⟨by decide, with_path_safe_outDir_missing "foo" (fun _ => true) ["foo"] (by decide)⟩

/-- Claim C8: `cleansing_path` is pure and deterministic: threaded
through an arbitrary outside state it leaves the state untouched, its
value does not depend on that state, and equal inputs give equal
results. -/
theorem cleansing_path_pure (σ : Type) (w w' : σ) (p q : String) (h : p = q) :
    cleansing_path_st σ p w = (cleansing_path p, w) ∧
    (cleansing_path_st σ p w).1 = (cleansing_path_st σ q w').1 ∧
    (cleansing_path_st σ p w).2 = w := by
  subst h
  exact ⟨rfl, rfl, rfl⟩

/-- Witness for C8 at the concrete input `"tmp"` with two distinct
states. -/
theorem cleansing_path_pure_witness :
    cleansing_path_st Bool "tmp" true = (cleansing_path "tmp", true) ∧
    (cleansing_path_st Bool "tmp" true).1 = (cleansing_path_st Bool "tmp" false).1 :=
  ⟨(cleansing_path_pure Bool true false "tmp" "tmp" rfl).1,
    (cleansing_path_pure Bool true false "tmp" "tmp" rfl).2.1⟩

/-- Claim C9: `cleansing_path` is idempotent: when it succeeds with
result `r`, running it on the rendered result returns `r` again. -/
theorem cleansing_path_idempotent (s : String) (r : List String)
    (h : cleansing_path s = Except.ok r) :
    cleansing_path (renderPath r) = Except.ok r := by
  have hg : ∀ x ∈ r, goodSeg x := cleansing_path_ok_goodSeg s r h
  unfold cleansing_path
  rw [pathComponents_renderPath r hg]
  have hloop := cleansingLoop_all_ok (renderPath r) (r.map Component.normal) []
    (fun c hc => by
      obtain ⟨x, -, rfl⟩ := List.mem_map.mp hc
      exact Or.inr ⟨x, rfl⟩)
  rw [hloop, extractNormals_map_normal]
  simp

/-- Witness for C9 at the concrete input `"./a//b/"`, whose sanitized
form is `a/b`. -/
theorem cleansing_path_idempotent_witness :
    cleansing_path "./a//b/" = Except.ok ["a", "b"] ∧
    renderPath ["a", "b"] = "a/b" ∧
    cleansing_path "a/b" = Except.ok ["a", "b"] := by
  refine ⟨by decide, by decide, ?_⟩
  exact cleansing_path_idempotent "./a//b/" ["a", "b"] (by decide)

/-- Claim C10: every constructed handle satisfies the invariant (target
nonempty, full path = root joined with target); the invariant is
preserved by `enable_autorm` (and `path` only reads `full`), so the
no-deletion branch of drop is unreachable: with `autorm` enabled the
drop always removes `root ⊕ firstComponent`. -/
theorem tempDir_invariant (s : String) (outDirEnv : Option String)
    (mk : List Component → Bool) (t : TempDir) (tr : List FsAction)
    (h : with_path_safe outDirEnv mk s = (Except.ok t, tr)) :
    TempDirInv t ∧ TempDirInv t.enable_autorm ∧ t.path = t.full ∧
    ∃ x xs, t.target = x :: xs ∧
      t.enable_autorm.dropActions
        = [FsAction.removeDirAll (t.root ++ [Component.normal x])] := by
  obtain ⟨r, target, -, -, hne, -, ht, -⟩ := with_path_safe_ok_inv outDirEnv mk s t tr h
  subst ht
  rcases target with - | ⟨x, xs⟩
  · exact absurd rfl hne
  · refine ⟨⟨by simp, rfl⟩, ⟨by simp [TempDir.enable_autorm], rfl⟩, rfl, x, xs, rfl, ?_⟩
    simp [TempDir.enable_autorm, TempDir.dropActions]

/-- Witness for C10 at the concrete construction of `"foo/bar"` under
root `"/o"`. -/
theorem tempDir_invariant_witness :
    TempDirInv (TempDir.mk [Component.rootDir, Component.normal "o"] ["foo", "bar"]
      [Component.rootDir, Component.normal "o", Component.normal "foo",
        Component.normal "bar"] false) ∧
    (TempDir.mk [Component.rootDir, Component.normal "o"] ["foo", "bar"]
      [Component.rootDir, Component.normal "o", Component.normal "foo",
        Component.normal "bar"] false).enable_autorm.dropActions
      = [FsAction.removeDirAll [Component.rootDir, Component.normal "o",
          Component.normal "foo"]] := by
  have h := tempDir_invariant "foo/bar" (some "/o") (fun _ => true)
    (TempDir.mk [Component.rootDir, Component.normal "o"] ["foo", "bar"]
      [Component.rootDir, Component.normal "o", Component.normal "foo",
        Component.normal "bar"] false)
    [FsAction.createDirAll [Component.rootDir, Component.normal "o",
      Component.normal "foo", Component.normal "bar"]]
    (by decide)
  obtain ⟨h1, -, -, x, xs, hx, hd⟩ := h
  injection hx with hx1 hx2
  subst hx1
  refine ⟨h1, ?_⟩
  simpa using hd

end OutdirTempdir
